import Mathlib

/-!
Verification of the `tempdir` repository (`src/lib.rs`): a tool that creates
named directories with a lifetime ("1d", "4w", ...) and later sweeps away the
expired ones.  This file shallowly embeds the library's functions:

* the pure duration parser (`parse_duration_string`, `parse_amount`,
  `parse_period`) is embedded over `List Char`, with Rust `i64` semantics made
  explicit (`parseI64` models `str::parse::<i64>`, `i64wrap` models two's
  complement wraparound of arithmetic in a release build);
* the filesystem-touching operations (`TemporaryDirectory.create`, `.save`,
  `.delete`, `clean_directories`) are embedded as explicit state passing over a
  small filesystem model `Fs` (a set of directories plus a set of files with
  contents).  Genuinely external outcomes — `info_store_path` resolution,
  `Path::canonicalize`, serde/IO write success, per-file `File::open`
  success — are supplied as oracle parameters; the structural success
  conditions of `create_dir` / `remove_dir` / `remove_file` / `File::create`
  (existence, emptiness, parent presence) are modelled inside `Fs`.

The model restricts character classes to ASCII (the regex `[A-Za-z]+` is ASCII
by definition; Rust's `char::is_alphabetic` and `to_lowercase` coincide with
the ASCII versions on ASCII input, and all code paths of interest stay ASCII).
-/

set_option autoImplicit false

namespace Tempdir

/-- ASCII letter test: the character class `[A-Za-z]` of the regex in
`parse_amount`, and the model of `char::is_alphabetic` in `parse_period`. -/
def isAsciiAlpha (c : Char) : Bool :=
  ('A' ≤ c && c ≤ 'Z') || ('a' ≤ c && c ≤ 'z')

/-- Numeric value accumulated over a run of decimal digit characters
(the core of `str::parse::<i64>` on an unsigned digit string). -/
def digitsToNat (cs : List Char) : Nat :=
  cs.foldl (fun a c => 10 * a + (c.toNat - 48)) 0

/-- Model of `str::parse::<i64>` applied to the part after an optional sign:
requires a nonempty all-digit string whose value (with the sign) fits in
an `i64`. -/
def parseI64core (sign : Int) (ds : List Char) : Option Int :=
  if ds = [] then none
  else if ds.all Char.isDigit then
    let v : Int := sign * (digitsToNat ds : Int)
    if -(2 ^ 63) ≤ v ∧ v ≤ 2 ^ 63 - 1 then some v else none
  else none

/-- Model of `str::parse::<i64>`: optional leading `-` or `+`, then a nonempty
digit string, value within the `i64` range. -/
def parseI64 : List Char → Option Int
  | [] => none
  | c :: cs =>
    if c = '-' then parseI64core (-1) cs
    else if c = '+' then parseI64core 1 cs
    else parseI64core 1 (c :: cs)

/-- Two's complement wraparound into the `i64` range, modelling Rust release
mode arithmetic on `i64`. -/
def i64wrap (x : Int) : Int :=
  (x + 2 ^ 63) % 2 ^ 64 - 2 ^ 63

/-- Model of `Regex::new(r"[A-Za-z]+").split(s)`: the substrings of `s` lying
between the maximal runs of ASCII letters (empty substrings included, exactly
as the regex crate produces them). -/
def splitAlpha : List Char → List (List Char)
  | [] => [[]]
  | c :: cs =>
    let r := splitAlpha cs
    if isAsciiAlpha c then
      match cs with
      | [] => [] :: r
      | c2 :: _ => if isAsciiAlpha c2 then r else [] :: r
    else
      match r with
      | s :: rest => (c :: s) :: rest
      | [] => [[c]]

/-- The error enum `TempDirErrors` of `lib.rs`. -/
inductive TempDirErrors
  | CreationFailed
  | WrongDurationString
  | WrongPeriodString
  | WrongTimeAmount
  | StoreFolderError
  deriving DecidableEq, Repr

/-- The unit enum `PeriodStringValue` of `lib.rs`. -/
inductive PeriodStringValue
  | second
  | minute
  | hour
  | day
  | week
  | month
  deriving DecidableEq, Repr

/-- `PeriodStringValue::value`: seconds per unit. -/
def PeriodStringValue.value : PeriodStringValue → Int
  | .second => 1
  | .minute => 60
  | .hour => 3600
  | .day => 86400
  | .week => 604800
  | .month => 2678400

/-- `parse_amount`: split the input on runs of ASCII letters, drop empty
pieces, require exactly one remaining piece, and parse it as an `i64`. -/
def parse_amount (cs : List Char) : Except TempDirErrors Int :=
  let amount_vec := (splitAlpha cs).filter (fun s => ¬ s = [])
  match amount_vec with
  | [a] =>
    match parseI64 a with
    | some value => .ok value
    | none => .error .WrongTimeAmount
  | _ => .error .WrongDurationString

/-- `parse_period`: keep the alphabetic characters of the input, lowercase
them, and look the resulting word up among the known units. -/
def parse_period (cs : List Char) : Except TempDirErrors Int :=
  let period_string := (cs.filter isAsciiAlpha).map Char.toLower
  if period_string = ['s'] then .ok PeriodStringValue.second.value
  else if period_string = ['m', 'i', 'n'] then .ok PeriodStringValue.minute.value
  else if period_string = ['h'] then .ok PeriodStringValue.hour.value
  else if period_string = ['d'] then .ok PeriodStringValue.day.value
  else if period_string = ['w'] then .ok PeriodStringValue.week.value
  else if period_string = ['m'] then .ok PeriodStringValue.month.value
  else .error .WrongPeriodString

/-- `parse_duration_string`: run `parse_amount` and `parse_period` (each
error is re-tagged to `WrongDurationString`, exactly as the source's match
arms do) and multiply the two results (Rust `i64` multiplication, wrapping
in release mode). -/
def parse_duration_string (duration : String) : Except TempDirErrors Int :=
  let duration_amount : Except TempDirErrors Int :=
    match parse_amount duration.data with
    | .ok amount => .ok amount
    | .error _ => .error .WrongDurationString
  let period_amount : Except TempDirErrors Int :=
    match parse_period duration.data with
    | .ok value => .ok value
    | .error _ => .error .WrongDurationString
  match duration_amount, period_amount with
  | .ok a, .ok p => .ok (i64wrap (a * p))
  | _, _ => .error .WrongDurationString

/-- The struct `TemporaryDirectory` of `lib.rs`; `PathBuf` is modelled as a
plain string. -/
structure TemporaryDirectory where
  name : String
  duration : String
  created_at : Int
  end_time : Int
  path : Option String
  deriving DecidableEq, Repr

/-- `TemporaryDirectory::new`: parse the duration; on success stamp the
current time (`now`, the injected wall clock) as `created_at` and
`created_at + value` (`i64` addition) as `end_time`, with `path` unset. -/
def TemporaryDirectory.new (name duration : String) (now : Int) :
    Except TempDirErrors TemporaryDirectory :=
  match parse_duration_string duration with
  | .ok value =>
    .ok { name := name, duration := duration, created_at := now,
          end_time := i64wrap (now + value), path := none }
  | .error _ => .error .CreationFailed

/-- `check_temporary_directory`: a record is expired when the current time is
strictly greater than its `end_time`. -/
def check_temporary_directory (tempdir : TemporaryDirectory) (current_time : Int) : Bool :=
  decide (current_time > tempdir.end_time)

/-! ## Filesystem model -/

/-- Content of a file in the store directory, as seen by
`serde_json::from_reader`: either valid JSON of a `TemporaryDirectory`
record, or anything else (fails to deserialize). -/
inductive FileData
  | record (r : TemporaryDirectory)
  | garbage
  deriving DecidableEq, Repr

/-- A snapshot of the filesystem: the set of directories and the set of files
(absolute path with content).  Paths are plain strings; a path `p` lies
inside a directory `d` when `d ++ "/"` is a prefix of `p`. -/
structure Fs where
  dirs : List String
  files : List (String × FileData)
  deriving DecidableEq, Repr

/-- Prefix test on character lists (the model of `Path` prefix containment;
`String.isPrefixOf` is byte-based and is avoided so that everything
evaluates by kernel reduction). -/
def charsPrefix : List Char → List Char → Bool
  | [], _ => true
  | _ :: _, [] => false
  | c :: cs, e :: es => c = e && charsPrefix cs es

/-- `p` designates a filesystem object strictly inside directory `d`. -/
def isInside (d p : String) : Bool :=
  charsPrefix (d ++ "/").data p.data

/-- `p` designates an object directly inside directory `d` (a `read_dir`
entry of `d`): inside `d` with no further path separator. -/
def directlyInside (d p : String) : Bool :=
  isInside d p && (((p.data.drop (d.length + 1)).filter (fun c => c = '/')) = [])

/-- The characters of a path up to (excluding) its last `/`. -/
def parentChars (cs : List Char) : List Char :=
  (((cs.reverse.dropWhile (fun c => ¬ c = '/')).drop 1)).reverse

/-- The parent directory of a path (the empty string when the path has no
separator). -/
def parentPath (p : String) : String :=
  String.mk (parentChars p.data)

/-- The directory `d` exists in this snapshot. -/
def dirExists (fs : Fs) (d : String) : Bool :=
  fs.dirs.contains d

/-- A file exists at path `p` in this snapshot. -/
def fileExists (fs : Fs) (p : String) : Bool :=
  fs.files.any (fun f => f.1 == p)

/-- The directory `d` is empty: no file and no other directory inside it. -/
def dirEmpty (fs : Fs) (d : String) : Bool :=
  (¬ fs.files.any (fun f => isInside d f.1)) &&
  (¬ fs.dirs.any (fun e => (¬ e = d) && isInside d e))

/-- Model of `fs::create_dir d`: fails when something already exists at `d`
or the parent directory is missing; otherwise records the new directory. -/
def createDirFs (fs : Fs) (d : String) : Option Fs :=
  if dirExists fs d || fileExists fs d || (¬ dirExists fs (parentPath d)) then none
  else some { dirs := d :: fs.dirs, files := fs.files }

/-- Model of `File::create p`: fails when a directory sits at `p` or the
parent directory is missing; otherwise creates (or truncates to) an empty —
hence unparseable — file at `p`. -/
def createFileFs (fs : Fs) (p : String) : Option Fs :=
  if dirExists fs p || (¬ dirExists fs (parentPath p)) then none
  else some { dirs := fs.dirs,
              files := (p, FileData.garbage) :: fs.files.filter (fun f => ¬ f.1 = p) }

/-- Overwrite the content of the file at `p` (the effect of a successful
`serde_json::to_writer` on a freshly created file). -/
def writeFileData (fs : Fs) (p : String) (d : FileData) : Fs :=
  { dirs := fs.dirs, files := (p, d) :: fs.files.filter (fun f => ¬ f.1 = p) }

/-- Model of `fs::remove_dir d`: succeeds only on an existing empty
directory. -/
def removeDirFs (fs : Fs) (d : String) : Option Fs :=
  if dirExists fs d && dirEmpty fs d then
    some { dirs := fs.dirs.erase d, files := fs.files }
  else none

/-- Model of `fs::remove_file p`: succeeds only on an existing file. -/
def removeFileFs (fs : Fs) (p : String) : Option Fs :=
  if fileExists fs p then
    some { dirs := fs.dirs, files := fs.files.filter (fun f => ¬ f.1 = p) }
  else none

/-! ## Stateful operations of `TemporaryDirectory` -/

/-- `TemporaryDirectory::delete`: if `path` is set, try to remove that
directory (failure is only logged); if `path` is unset, log and do
nothing. -/
def TemporaryDirectory.delete (self : TemporaryDirectory) (fs : Fs) : Fs :=
  match self.path with
  | some p =>
    match removeDirFs fs p with
    | some fs1 => fs1
    | none => fs
  | none => fs

/-- The store-directory phase of `save`: `fs::read_dir(&path).ok()` succeeds
when the store directory exists; otherwise `fs::create_dir(&path)` is
attempted. -/
def ensureStoreDir (fs : Fs) (store : String) : Option Fs :=
  if dirExists fs store then some fs else createDirFs fs store

/-- `TemporaryDirectory::save`.  `storePath` is the outcome of
`info_store_path()` (`none` models resolution failure); `serOk` tells
whether `serde_json::to_writer` succeeds (it can fail on an IO error of the
underlying file).  Returns the new filesystem and whether the save reached
the final "Temporary directory saved" branch; every failing branch calls
`self.delete` and stops. -/
def TemporaryDirectory.save (self : TemporaryDirectory) (storePath : Option String)
    (serOk : Bool) (fs : Fs) : Fs × Bool :=
  match storePath with
  | none => (self.delete fs, false)
  | some store =>
    match ensureStoreDir fs store with
    | none => (self.delete fs, false)
    | some fs1 =>
      let fpath := store ++ "/" ++ self.name ++ ".json"
      match createFileFs fs1 fpath with
      | none => (self.delete fs1, false)
      | some fs2 =>
        if serOk then (writeFileData fs2 fpath (FileData.record self), true)
        else (self.delete fs2, false)

/-- `TemporaryDirectory::create`: try to create the directory `name` (a
relative path, resolved here against the current working directory `cwd`);
on failure only log.  On success canonicalize the path — `canonOk` tells
whether `Path::canonicalize` succeeds; on its failure the error is only
logged and `path` stays unset — and then `save` the record. -/
def TemporaryDirectory.create (self : TemporaryDirectory) (cwd : String) (canonOk : Bool)
    (storePath : Option String) (serOk : Bool) (fs : Fs) : Fs :=
  match createDirFs fs (cwd ++ "/" ++ self.name) with
  | some fs1 =>
    let self1 := if canonOk then { self with path := some (cwd ++ "/" ++ self.name) } else self
    (self1.save storePath serOk fs1).1
  | none => fs

/-! ## The sweep (`clean_directories`) -/

/-- The entries `read_dir` yields for the store directory: the files lying
directly inside it, in snapshot order. -/
def sweepEntries (store : String) (fs : Fs) : List (String × FileData) :=
  fs.files.filter (fun f => directlyInside store f.1)

/-- Result of the per-entry loop of `clean_directories`: the filesystem after
the physical deletions, the queue `deleted_directory_files` of metadata
paths to remove, and the records on which `delete` was invoked. -/
structure CleanOutcome where
  fs : Fs
  queued : List String
  deleteCalls : List TemporaryDirectory
  deriving Repr

/-- The first loop of `clean_directories`: for each entry, try to open it
(`openOk` — an entry whose `DirEntry` was an `Err` or whose `File::open`
failed is skipped with a log), deserialize it (a `garbage` file is skipped),
check expiry, `delete` the expired record's directory, and queue the
metadata file for removal whether or not the record was expired. -/
def cleanLoop (now : Int) (openOk : String → Bool) :
    List (String × FileData) → Fs → CleanOutcome
  | [], fs => ⟨fs, [], []⟩
  | (p, d) :: rest, fs =>
    if openOk p then
      match d with
      | .garbage => cleanLoop now openOk rest fs
      | .record r =>
        if check_temporary_directory r now then
          let out := cleanLoop now openOk rest (r.delete fs)
          ⟨out.fs, p :: out.queued, r :: out.deleteCalls⟩
        else
          let out := cleanLoop now openOk rest fs
          ⟨out.fs, p :: out.queued, out.deleteCalls⟩
    else cleanLoop now openOk rest fs

/-- The second loop of `clean_directories`: remove each queued metadata file
(failures are only logged). -/
def removeQueued : List String → Fs → Fs
  | [], fs => fs
  | p :: rest, fs =>
    removeQueued rest
      (match removeFileFs fs p with
       | some fs1 => fs1
       | none => fs)

/-- `clean_directories`: resolve the store path (abort on failure), list it
(abort when it cannot be opened), run the per-entry loop, then remove the
queued metadata files. -/
def clean_directories (storePath : Option String) (now : Int)
    (openOk : String → Bool) (fs : Fs) : Fs :=
  match storePath with
  | none => fs
  | some store =>
    if dirExists fs store then
      let out := cleanLoop now openOk (sweepEntries store fs) fs
      removeQueued out.queued out.fs
    else fs

/-! ## Spec-side helpers: decimal digit strings and well-formed durations -/

/-- The character for a single decimal digit. -/
def digitChar : Nat → Char
  | 0 => '0' | 1 => '1' | 2 => '2' | 3 => '3' | 4 => '4'
  | 5 => '5' | 6 => '6' | 7 => '7' | 8 => '8' | _ => '9'

/-- Accumulator-passing producer of the decimal digit characters of a
number (most significant first, prepended to `acc`). -/
def natDigitsAux : Nat → List Char → List Char
  | 0, acc => acc
  | n + 1, acc => natDigitsAux ((n + 1) / 10) (digitChar ((n + 1) % 10) :: acc)
  decreasing_by exact Nat.div_lt_self (Nat.succ_pos n) (by decide)

/-- The decimal digit characters of a natural number. -/
def natDigits (n : Nat) : List Char :=
  if n = 0 then ['0'] else natDigitsAux n []

/-- The input shape the spec calls a valid duration: exactly one nonempty
segment between the letter runs, parseable as an `i64`, and the lowercased
letters of the string forming one of the six known units. -/
def decomposesAsDuration (s : String) : Bool :=
  (match (splitAlpha s.data).filter (fun t => ¬ t = []) with
   | [ds] => (parseI64 ds).isSome
   | _ => false) &&
  decide (((s.data.filter isAsciiAlpha).map Char.toLower) ∈
    [['s'], ['m', 'i', 'n'], ['h'], ['d'], ['w'], ['m']])

/-! ## Lemmas: decimal digits -/

theorem digitChar_spec : ∀ d, d < 10 →
    isAsciiAlpha (digitChar d) = false ∧ (digitChar d).isDigit = true ∧
    (digitChar d).toNat - 48 = d ∧ ¬ digitChar d = '-' ∧ ¬ digitChar d = '+' := by
  decide

theorem mem_natDigitsAux : ∀ n acc c, c ∈ natDigitsAux n acc →
    (∃ d, d < 10 ∧ c = digitChar d) ∨ c ∈ acc := by
  intro n
  induction n using Nat.strong_induction_on with
  | _ n ih =>
    match n with
    | 0 =>
      intro acc c h
      simp only [natDigitsAux] at h
      exact Or.inr h
    | m + 1 =>
      intro acc c h
      rw [natDigitsAux] at h
      rcases ih ((m + 1) / 10) (Nat.div_lt_self (Nat.succ_pos m) (by decide)) _ c h with h1 | h1
      · exact Or.inl h1
      · rcases List.mem_cons.mp h1 with h2 | h2
        · exact Or.inl ⟨(m + 1) % 10, Nat.mod_lt _ (by decide), h2⟩
        · exact Or.inr h2

theorem natDigitsAux_eq_nil : ∀ n acc, natDigitsAux n acc = [] → acc = [] := by
  intro n
  induction n using Nat.strong_induction_on with
  | _ n ih =>
    match n with
    | 0 =>
      intro acc h
      simpa only [natDigitsAux] using h
    | m + 1 =>
      intro acc h
      rw [natDigitsAux] at h
      have := ih ((m + 1) / 10) (Nat.div_lt_self (Nat.succ_pos m) (by decide)) _ h
      exact absurd this (by simp)

theorem foldl_natDigitsAux : ∀ n, 0 < n → ∀ acc (a : Nat),
    ∃ k, 0 < k ∧ n < 10 ^ k ∧
      List.foldl (fun a c => 10 * a + (c.toNat - 48)) a (natDigitsAux n acc) =
      List.foldl (fun a c => 10 * a + (c.toNat - 48)) (a * 10 ^ k + n) acc := by
  intro n
  induction n using Nat.strong_induction_on with
  | _ n ih =>
    intro hn acc a
    match n, hn with
    | m + 1, _ =>
      rw [natDigitsAux]
      by_cases h0 : (m + 1) / 10 = 0
      · have hlt : m + 1 < 10 := by omega
        have hmod : (m + 1) % 10 = m + 1 := Nat.mod_eq_of_lt hlt
        rw [h0]
        simp only [natDigitsAux, List.foldl_cons]
        refine ⟨1, by decide, by omega, ?_⟩
        have hdc := (digitChar_spec ((m + 1) % 10) (Nat.mod_lt _ (by decide))).2.2.1
        have : 10 * a + ((digitChar ((m + 1) % 10)).toNat - 48) = a * 10 ^ 1 + (m + 1) := by
          rw [hdc, hmod]; ring
        rw [this]
      · obtain ⟨k, hk, hbound, hfold⟩ :=
          ih ((m + 1) / 10) (Nat.div_lt_self (Nat.succ_pos m) (by decide)) (by omega)
            (digitChar ((m + 1) % 10) :: acc) a
        refine ⟨k + 1, by omega, ?_, ?_⟩
        · have h10 : (10 : Nat) ^ (k + 1) = 10 * 10 ^ k := by ring
          have hdm := Nat.div_add_mod (m + 1) 10
          have hmodlt : (m + 1) % 10 < 10 := Nat.mod_lt _ (by decide)
          omega
        · rw [hfold, List.foldl_cons]
          have hdc := (digitChar_spec ((m + 1) % 10) (Nat.mod_lt _ (by decide))).2.2.1
          have hdm := Nat.div_add_mod (m + 1) 10
          have heq : 10 * (a * 10 ^ k + (m + 1) / 10) + ((digitChar ((m + 1) % 10)).toNat - 48) =
              a * 10 ^ (k + 1) + (m + 1) := by
            rw [hdc]
            conv_rhs => rw [← hdm]
            rw [pow_succ]
            ring
          rw [heq]

theorem digitsToNat_natDigits (n : Nat) : digitsToNat (natDigits n) = n := by
  by_cases h : n = 0
  · subst h; decide
  · unfold natDigits digitsToNat
    rw [if_neg h]
    obtain ⟨k, _, _, hfold⟩ := foldl_natDigitsAux n (Nat.pos_of_ne_zero h) [] 0
    rw [hfold]
    simp

theorem natDigits_spec (n : Nat) :
    natDigits n ≠ [] ∧ ∀ c ∈ natDigits n, ∃ d, d < 10 ∧ c = digitChar d := by
  unfold natDigits
  by_cases h : n = 0
  · rw [if_pos h]
    exact ⟨by simp, by intro c hc; simp at hc; exact ⟨0, by decide, hc⟩⟩
  · rw [if_neg h]
    constructor
    · intro hnil
      have hne : n ≠ 0 := h
      match n, hne with
      | m + 1, _ =>
        rw [natDigitsAux] at hnil
        exact absurd (natDigitsAux_eq_nil _ _ hnil) (by simp)
    · intro c hc
      rcases mem_natDigitsAux n [] c hc with h1 | h1
      · exact h1
      · exact absurd h1 (by simp)

/-! ## Lemmas: the letter-run splitter -/

theorem splitAlpha_alpha_run : ∀ us, us ≠ [] → (∀ c ∈ us, isAsciiAlpha c = true) →
    splitAlpha us = [[], []] := by
  intro us
  induction us with
  | nil => intro h; exact absurd rfl h
  | cons c cs ih =>
    intro _ hall
    have hc : isAsciiAlpha c = true := hall c (by simp)
    cases cs with
    | nil => simp [splitAlpha, hc]
    | cons c2 rest =>
      have hc2 : isAsciiAlpha c2 = true := hall c2 (by simp)
      have hr : splitAlpha (c2 :: rest) = [[], []] :=
        ih (by simp) (fun x hx => hall x (List.mem_cons_of_mem _ hx))
      have hstep : splitAlpha (c :: c2 :: rest) =
          if isAsciiAlpha c then
            (if isAsciiAlpha c2 then splitAlpha (c2 :: rest) else [] :: splitAlpha (c2 :: rest))
          else
            match splitAlpha (c2 :: rest) with
            | s :: rest1 => (c :: s) :: rest1
            | [] => [[c]] := rfl
      rw [hstep, hr, if_pos hc, if_pos hc2]

theorem splitAlpha_nonalpha_prepend : ∀ ds xs s t,
    (∀ c ∈ ds, isAsciiAlpha c = false) → splitAlpha xs = s :: t →
    splitAlpha (ds ++ xs) = (ds ++ s) :: t := by
  intro ds
  induction ds with
  | nil => intro xs s t _ h; simpa using h
  | cons d ds1 ih =>
    intro xs s t hall h
    have hd : isAsciiAlpha d = false := hall d (by simp)
    have hrec := ih xs s t (fun x hx => hall x (by simp [hx])) h
    simp [splitAlpha, hd, hrec]

/-! ## Lemmas: the parser on digits-then-unit inputs -/

theorem parseI64_natDigits (n : Nat) (hn : (n : Int) ≤ 2 ^ 63 - 1) :
    parseI64 (natDigits n) = some (n : Int) := by
  obtain ⟨hne, hdig⟩ := natDigits_spec n
  obtain ⟨c, cs, hcons⟩ := List.exists_cons_of_ne_nil hne
  obtain ⟨d, hd, hc⟩ := hdig c (by rw [hcons]; simp)
  have hspec := digitChar_spec d hd
  have h1 : ¬ c = '-' := by rw [hc]; exact hspec.2.2.2.1
  have h2 : ¬ c = '+' := by rw [hc]; exact hspec.2.2.2.2
  have halldig : (c :: cs).all Char.isDigit = true := by
    rw [List.all_eq_true]
    intro x hx
    obtain ⟨e, he, hx1⟩ := hdig x (by rw [hcons]; exact hx)
    rw [hx1]; exact (digitChar_spec e he).2.1
  have hval : (digitsToNat (c :: cs) : Int) = (n : Int) := by
    rw [← hcons, digitsToNat_natDigits]
  rw [hcons]
  simp only [parseI64]
  unfold parseI64core
  rw [if_neg h1, if_neg h2, if_neg (by simp), if_pos halldig]
  rw [one_mul, hval, if_pos ⟨by omega, hn⟩]

theorem parse_amount_digits (n : Nat) (us : List Char) (hus : us ≠ [])
    (hall : ∀ c ∈ us, isAsciiAlpha c = true) (hn : (n : Int) ≤ 2 ^ 63 - 1) :
    parse_amount (natDigits n ++ us) = .ok (n : Int) := by
  obtain ⟨hne, hdig⟩ := natDigits_spec n
  have hnonalpha : ∀ c ∈ natDigits n, isAsciiAlpha c = false := by
    intro c hc
    obtain ⟨d, hd, hc1⟩ := hdig c hc
    rw [hc1]; exact (digitChar_spec d hd).1
  have hsplit : splitAlpha (natDigits n ++ us) = (natDigits n ++ []) :: [[]] :=
    splitAlpha_nonalpha_prepend _ us [] [[]] hnonalpha (splitAlpha_alpha_run us hus hall)
  unfold parse_amount
  rw [hsplit]
  have hfilter : ((natDigits n ++ []) :: [[]]).filter (fun s => ¬ s = []) = [natDigits n] := by
    simp [List.filter, hne]
  rw [hfilter]
  simp only [parseI64_natDigits n hn]

theorem filter_alpha_digits (n : Nat) (us : List Char) :
    (natDigits n ++ us).filter isAsciiAlpha = us.filter isAsciiAlpha := by
  rw [List.filter_append]
  have h0 : (natDigits n).filter isAsciiAlpha = [] := by
    rw [List.filter_eq_nil_iff]
    intro c hc
    obtain ⟨d, hd, hc1⟩ := (natDigits_spec n).2 c hc
    simp [hc1, (digitChar_spec d hd).1]
  rw [h0, List.nil_append]

theorem parse_period_append_digits (n : Nat) (us : List Char) :
    parse_period (natDigits n ++ us) = parse_period us := by
  unfold parse_period
  rw [filter_alpha_digits]

theorem parse_duration_digits_unit (n : Nat) (us : List Char) (mult : Int)
    (hpos : 0 < n) (hfit : (n : Int) ≤ 2 ^ 63 - 1)
    (hus : us ≠ []) (hall : ∀ c ∈ us, isAsciiAlpha c = true)
    (hperiod : parse_period (natDigits n ++ us) = .ok mult)
    (hmult : 0 < mult) (hprod : (n : Int) * mult ≤ 2 ^ 63 - 1) :
    parse_duration_string (String.mk (natDigits n ++ us)) = .ok ((n : Int) * mult) := by
  unfold parse_duration_string
  have hdata : (String.mk (natDigits n ++ us)).data = natDigits n ++ us := rfl
  rw [hdata, parse_amount_digits n us hus hall hfit, hperiod]
  have hwrap : i64wrap ((n : Int) * mult) = (n : Int) * mult := by
    unfold i64wrap
    have hge : 0 ≤ (n : Int) * mult := by positivity
    omega
  simp [hwrap]

/-! ## Characterizations of parser success used by claim C6 -/

theorem parse_amount_ok_shape (cs : List Char) (v : Int) (h : parse_amount cs = .ok v) :
    ∃ a, (splitAlpha cs).filter (fun t => ¬ t = []) = [a] ∧ parseI64 a = some v := by
  unfold parse_amount at h
  rcases hL : (splitAlpha cs).filter (fun t => ¬ t = []) with _ | ⟨a, _ | ⟨b, l⟩⟩
  · rw [hL] at h
    exact absurd h (by simp)
  · rw [hL] at h
    cases hp : parseI64 a with
    | none =>
      simp only [hp] at h
      exact absurd h (by simp)
    | some w =>
      simp only [hp, Except.ok.injEq] at h
      exact ⟨a, hL, by rw [hp, h]⟩
  · rw [hL] at h
    exact absurd h (by simp)

theorem parse_period_ok_mem (cs : List Char) (v : Int) (h : parse_period cs = .ok v) :
    ((cs.filter isAsciiAlpha).map Char.toLower) ∈
      [['s'], ['m', 'i', 'n'], ['h'], ['d'], ['w'], ['m']] := by
  unfold parse_period at h
  by_cases h1 : (cs.filter isAsciiAlpha).map Char.toLower = ['s']
  · simp [h1]
  by_cases h2 : (cs.filter isAsciiAlpha).map Char.toLower = ['m', 'i', 'n']
  · simp [h2]
  by_cases h3 : (cs.filter isAsciiAlpha).map Char.toLower = ['h']
  · simp [h3]
  by_cases h4 : (cs.filter isAsciiAlpha).map Char.toLower = ['d']
  · simp [h4]
  by_cases h5 : (cs.filter isAsciiAlpha).map Char.toLower = ['w']
  · simp [h5]
  by_cases h6 : (cs.filter isAsciiAlpha).map Char.toLower = ['m']
  · simp [h6]
  rw [if_neg h1, if_neg h2, if_neg h3, if_neg h4, if_neg h5, if_neg h6] at h
  exact absurd h (by simp)

theorem parse_duration_error_amount (s : String) (e : TempDirErrors)
    (h : parse_amount s.data = .error e) :
    parse_duration_string s = .error .WrongDurationString := by
  cases hp : parse_period s.data <;> simp [parse_duration_string, h, hp]

theorem parse_duration_error_period (s : String) (e : TempDirErrors)
    (h : parse_period s.data = .error e) :
    parse_duration_string s = .error .WrongDurationString := by
  cases ha : parse_amount s.data <;> simp [parse_duration_string, h, ha]

/-! ## Claim theorems: the duration parser, construction and expiry -/

/-- Claim C3, counterexample: the claim's example value for `parse("8m")` is
`21424800`, but the code computes `8 * 2678400 = 21427200`; moreover an
amount beyond the `i64` range makes the parse fail rather than return
`amount * unit_seconds`. -/
theorem parse_example_values_cex :
    parse_duration_string "8m" = .ok 21427200 ∧
    ((Except.ok 21427200 : Except TempDirErrors Int) ≠ .ok 21424800) ∧
    parse_duration_string "9223372036854775808s" = .error .WrongDurationString := by
  refine ⟨rfl, ?_, rfl⟩
  intro h
  exact absurd (Except.ok.inj h) (by decide)

/-- Claim C3 (amended): for every positive amount that fits in an `i64` and
every unit in `{s, min, h, d, w, m}` whose product with the amount also fits
in an `i64`, parsing the amount's decimal digits followed by the unit yields
amount times the unit's second-multiplier; in particular
`parse("4w") = 2419200`, `parse("1d") = 86400` and `parse("8m") = 21427200`. -/
theorem parse_duration_amount_unit :
    (∀ (amount : Nat) (unit : String) (mult : Int),
      0 < amount →
      (amount : Int) ≤ 2 ^ 63 - 1 →
      (unit, mult) ∈ [("s", (1 : Int)), ("min", 60), ("h", 3600), ("d", 86400),
        ("w", 604800), ("m", 2678400)] →
      (amount : Int) * mult ≤ 2 ^ 63 - 1 →
      parse_duration_string (String.mk (natDigits amount ++ unit.data)) =
        .ok ((amount : Int) * mult)) ∧
    parse_duration_string "4w" = .ok 2419200 ∧
    parse_duration_string "1d" = .ok 86400 ∧
    parse_duration_string "8m" = .ok 21427200 := by
  refine ⟨?_, rfl, rfl, rfl⟩
  intro amount unit mult hpos hfit hmem hprod
  fin_cases hmem
  · exact parse_duration_digits_unit amount "s".data 1 hpos hfit (by decide) (by decide)
      (by rw [parse_period_append_digits]; rfl) (by decide) hprod
  · exact parse_duration_digits_unit amount "min".data 60 hpos hfit (by decide) (by decide)
      (by rw [parse_period_append_digits]; rfl) (by decide) hprod
  · exact parse_duration_digits_unit amount "h".data 3600 hpos hfit (by decide) (by decide)
      (by rw [parse_period_append_digits]; rfl) (by decide) hprod
  · exact parse_duration_digits_unit amount "d".data 86400 hpos hfit (by decide) (by decide)
      (by rw [parse_period_append_digits]; rfl) (by decide) hprod
  · exact parse_duration_digits_unit amount "w".data 604800 hpos hfit (by decide) (by decide)
      (by rw [parse_period_append_digits]; rfl) (by decide) hprod
  · exact parse_duration_digits_unit amount "m".data 2678400 hpos hfit (by decide) (by decide)
      (by rw [parse_period_append_digits]; rfl) (by decide) hprod

/-- Claim C3, witness: the general statement applied at `15min`. -/
theorem parse_duration_amount_unit_witness :
    parse_duration_string "15min" = .ok 900 := by
  have h := parse_duration_amount_unit.1 15 "min" 60 (by decide) (by decide) (by decide)
    (by decide)
  have hd : natDigits 15 = ['1', '5'] := by
    simp [natDigits, natDigitsAux, digitChar]
  rw [hd] at h
  exact h

/-- Claim C4: the expiry check is strict: a record is not expired when `now`
equals `end_time` and is expired when `now` equals `end_time + 1`. -/
theorem expiry_strict_boundary (r : TemporaryDirectory) :
    check_temporary_directory r r.end_time = false ∧
    check_temporary_directory r (r.end_time + 1) = true := by
  unfold check_temporary_directory
  constructor
  · rw [decide_eq_false_iff_not]
    omega
  · rw [decide_eq_true_eq]
    omega

/-- Claim C5, counterexample: with wraparound `i64` addition, a record built
from a huge (but parseable) duration has `end_time - created_at` different
from the parsed duration. -/
theorem construct_end_time_cex :
    parse_duration_string "9223372036854775807s" = .ok 9223372036854775807 ∧
    TemporaryDirectory.new "x" "9223372036854775807s" 1 =
      .ok ⟨"x", "9223372036854775807s", 1, -9223372036854775808, none⟩ ∧
    ((-9223372036854775808 : Int) - 1 ≠ 9223372036854775807) := by
  refine ⟨rfl, rfl, by decide⟩

/-- Claim C5 (amended): whenever the creation timestamp plus the parsed
duration stays within the `i64` range, a successfully constructed record
satisfies `end_time - created_at = parse(duration)`; the two timestamps are
never set independently. -/
theorem construct_end_time_eq (name duration : String) (now v : Int)
    (r : TemporaryDirectory)
    (hparse : parse_duration_string duration = .ok v)
    (hlo : -(2 ^ 63) ≤ now + v) (hhi : now + v ≤ 2 ^ 63 - 1)
    (hnew : TemporaryDirectory.new name duration now = .ok r) :
    r.end_time - r.created_at = v := by
  have hr : r = { name := name, duration := duration, created_at := now,
                  end_time := i64wrap (now + v), path := none } := by
    unfold TemporaryDirectory.new at hnew
    rw [hparse] at hnew
    exact (Except.ok.inj hnew).symm
  subst hr
  show i64wrap (now + v) - now = v
  unfold i64wrap
  omega

/-- Claim C5, witness: the amended statement applied to a record built from
`"1d"` at time 1000. -/
theorem construct_end_time_eq_witness :
    ((⟨"foo", "1d", 1000, 87400, none⟩ : TemporaryDirectory).end_time -
      (⟨"foo", "1d", 1000, 87400, none⟩ : TemporaryDirectory).created_at) = 86400 :=
  construct_end_time_eq "foo" "1d" 1000 86400 _ rfl (by decide) (by decide) rfl

/-- Claim C6: the duration parser fails on every string that does not split
into exactly one `i64`-parseable segment plus letters spelling a known unit
case-insensitively; in particular `"abc"`, `"10"` and `"10xyz"` fail. -/
theorem duration_parser_rejects_malformed :
    (∀ s : String, decomposesAsDuration s = false →
      parse_duration_string s = .error .WrongDurationString) ∧
    parse_duration_string "abc" = .error .WrongDurationString ∧
    parse_duration_string "10" = .error .WrongDurationString ∧
    parse_duration_string "10xyz" = .error .WrongDurationString := by
  refine ⟨?_, rfl, rfl, rfl⟩
  intro s h
  unfold decomposesAsDuration at h
  rw [Bool.and_eq_false_iff] at h
  rcases h with hA | hB
  · cases hp : parse_amount s.data with
    | error e => exact parse_duration_error_amount s e hp
    | ok v =>
      obtain ⟨a, hL, hI⟩ := parse_amount_ok_shape _ _ hp
      rw [hL] at hA
      simp only [hI, Option.isSome_some] at hA
      exact absurd hA (by simp)
  · cases hp : parse_period s.data with
    | error e => exact parse_duration_error_period s e hp
    | ok v =>
      rw [decide_eq_false_iff_not] at hB
      exact absurd (parse_period_ok_mem _ _ hp) hB

/-- Claim C6, witness: the general statement applied at `"abc"`. -/
theorem duration_parser_rejects_malformed_witness :
    parse_duration_string "abc" = .error .WrongDurationString :=
  duration_parser_rejects_malformed.1 "abc" (by decide)

/-- Claim C10: the parser also accepts unit-before-amount and negative
amounts — `parse("d5") = 432000 = parse("5d")` and
`parse("-5d") = -432000` — so a constructed record can have `end_time`
earlier than `created_at`. -/
theorem parser_accepts_odd_forms :
    parse_duration_string "d5" = .ok 432000 ∧
    parse_duration_string "5d" = .ok 432000 ∧
    parse_duration_string "-5d" = .ok (-432000) ∧
    TemporaryDirectory.new "x" "-5d" 0 = .ok ⟨"x", "-5d", 0, -432000, none⟩ ∧
    (⟨"x", "-5d", 0, -432000, none⟩ : TemporaryDirectory).end_time <
      (⟨"x", "-5d", 0, -432000, none⟩ : TemporaryDirectory).created_at := by
  exact ⟨rfl, rfl, rfl, rfl, by decide⟩

/-! ## Lemmas: basic filesystem operations -/

theorem removeFileFs_dirs (fs fs1 : Fs) (p : String) (h : removeFileFs fs p = some fs1) :
    fs1.dirs = fs.dirs := by
  unfold removeFileFs at h
  split at h
  · cases h; rfl
  · cases h

theorem removeFileFs_files_sub (fs fs1 : Fs) (p : String) (pd : String × FileData)
    (h : removeFileFs fs p = some fs1) (hm : pd ∈ fs1.files) : pd ∈ fs.files := by
  unfold removeFileFs at h
  split at h
  · cases h
    exact (List.mem_filter.mp hm).1
  · cases h

theorem fileExists_false_iff (fs : Fs) (p : String) :
    fileExists fs p = false ↔ ∀ pd ∈ fs.files, ¬ pd.1 = p := by
  simp [fileExists, List.any_eq_true]

theorem removeFileFs_gone (fs fs1 : Fs) (p : String) (h : removeFileFs fs p = some fs1) :
    fileExists fs1 p = false := by
  unfold removeFileFs at h
  split at h
  · cases h
    rw [fileExists_false_iff]
    intro pd hm
    have := (List.mem_filter.mp hm).2
    simpa using this
  · cases h

theorem removeDirFs_files (fs fs1 : Fs) (d : String) (h : removeDirFs fs d = some fs1) :
    fs1.files = fs.files := by
  unfold removeDirFs at h
  split at h
  · cases h; rfl
  · cases h

theorem removeDirFs_some_dirs (fs fs1 : Fs) (d : String) (h : removeDirFs fs d = some fs1) :
    fs1.dirs = fs.dirs.erase d := by
  unfold removeDirFs at h
  split at h
  · cases h; rfl
  · cases h

theorem delete_files (r : TemporaryDirectory) (fs : Fs) : (r.delete fs).files = fs.files := by
  cases hp : r.path with
  | none => simp [TemporaryDirectory.delete, hp]
  | some q =>
    cases hrm : removeDirFs fs q with
    | none => simp [TemporaryDirectory.delete, hp, hrm]
    | some fs1 => simp [TemporaryDirectory.delete, hp, hrm, removeDirFs_files fs fs1 q hrm]

theorem delete_keeps_dir (r : TemporaryDirectory) (fs : Fs) (d : String)
    (hd : d ∈ fs.dirs) (hne : ¬ r.path = some d) : d ∈ (r.delete fs).dirs := by
  cases hp : r.path with
  | none => simpa [TemporaryDirectory.delete, hp] using hd
  | some q =>
    have hqd : ¬ d = q := by
      intro h
      exact hne (by rw [hp, h])
    cases hrm : removeDirFs fs q with
    | none => simpa [TemporaryDirectory.delete, hp, hrm] using hd
    | some fs1 =>
      simp only [TemporaryDirectory.delete, hp, hrm]
      rw [removeDirFs_some_dirs fs fs1 q hrm]
      exact (List.mem_erase_of_ne hqd).mpr hd

theorem delete_removed_dir (r : TemporaryDirectory) (fs : Fs) (d : String)
    (hd : d ∈ fs.dirs) (hnot : ¬ d ∈ (r.delete fs).dirs) : r.path = some d := by
  by_contra h
  exact hnot (delete_keeps_dir r fs d hd h)

theorem delete_keeps_nonempty_dir (r : TemporaryDirectory) (fs : Fs) (store : String)
    (hst : store ∈ fs.dirs) (pfile : String) (pd : FileData)
    (hfile : (pfile, pd) ∈ fs.files) (hin : isInside store pfile = true) :
    store ∈ (r.delete fs).dirs := by
  by_cases hq : r.path = some store
  · have hany : fs.files.any (fun f => isInside store f.1) = true :=
      List.any_eq_true.mpr ⟨(pfile, pd), hfile, hin⟩
    have hrm : removeDirFs fs store = none := by
      unfold removeDirFs dirEmpty
      simp [hany]
    simp [TemporaryDirectory.delete, hq, hrm]
    exact hst
  · exact delete_keeps_dir r fs store hst hq

/-! ## Lemmas: the metadata-removal loop -/

theorem removeQueued_dirs : ∀ (q : List String) (fs : Fs),
    (removeQueued q fs).dirs = fs.dirs := by
  intro q
  induction q with
  | nil => intro fs; rfl
  | cons p rest ih =>
    intro fs
    simp only [removeQueued]
    rcases hrm : removeFileFs fs p with _ | fs1
    · rw [ih]
    · rw [ih, removeFileFs_dirs fs fs1 p hrm]

theorem removeQueued_files_sub : ∀ (q : List String) (fs : Fs) (pd : String × FileData),
    pd ∈ (removeQueued q fs).files → pd ∈ fs.files := by
  intro q
  induction q with
  | nil => intro fs pd h; exact h
  | cons p rest ih =>
    intro fs pd h
    simp only [removeQueued] at h
    rcases hrm : removeFileFs fs p with _ | fs1
    · rw [hrm] at h
      exact ih fs pd h
    · rw [hrm] at h
      exact removeFileFs_files_sub fs fs1 p pd hrm (ih fs1 pd h)

theorem removeQueued_mono_false : ∀ (q : List String) (fs : Fs) (p : String),
    fileExists fs p = false → fileExists (removeQueued q fs) p = false := by
  intro q fs p h
  rw [fileExists_false_iff] at h ⊢
  intro pd hm
  exact h pd (removeQueued_files_sub q fs pd hm)

theorem removeQueued_of_mem : ∀ (q : List String) (fs : Fs) (p : String),
    p ∈ q → fileExists (removeQueued q fs) p = false := by
  intro q
  induction q with
  | nil => intro fs p h; cases h
  | cons p0 rest ih =>
    intro fs p h
    simp only [removeQueued]
    rcases List.mem_cons.mp h with h1 | h1
    · subst h1
      rcases hrm : removeFileFs fs p with _ | fs1
      · have : fileExists fs p = false := by
          unfold removeFileFs at hrm
          split at hrm
          · cases hrm
          · rename_i hcond
            exact Bool.not_eq_true _ ▸ Bool.eq_false_iff.mpr hcond
        exact removeQueued_mono_false rest fs p this
      · exact removeQueued_mono_false rest fs1 p (removeFileFs_gone fs fs1 p hrm)
    · rcases hrm : removeFileFs fs p0 with _ | fs1
      · exact ih fs p h1
      · exact ih fs1 p h1

theorem removeQueued_removed_mem : ∀ (q : List String) (fs : Fs) (pd : String × FileData),
    pd ∈ fs.files → ¬ pd ∈ (removeQueued q fs).files → pd.1 ∈ q := by
  intro q
  induction q with
  | nil => intro fs pd hm hn; exact absurd hm hn
  | cons p0 rest ih =>
    intro fs pd hm hn
    simp only [removeQueued] at hn
    rcases hrm : removeFileFs fs p0 with _ | fs1
    · rw [hrm] at hn
      exact List.mem_cons_of_mem _ (ih fs pd hm hn)
    · rw [hrm] at hn
      by_cases hmem : pd ∈ fs1.files
      · exact List.mem_cons_of_mem _ (ih fs1 pd hmem hn)
      · have hpd : pd.1 = p0 := by
          unfold removeFileFs at hrm
          split at hrm
          · cases hrm
            by_contra hne
            exact hmem (List.mem_filter.mpr ⟨hm, by simpa using hne⟩)
          · cases hrm
        rw [hpd]
        exact List.mem_cons_self _ _

/-! ## Lemmas: the per-entry sweep loop -/

theorem cleanLoop_files (now : Int) (openOk : String → Bool) :
    ∀ (entries : List (String × FileData)) (fs : Fs),
    (cleanLoop now openOk entries fs).fs.files = fs.files := by
  intro entries
  induction entries with
  | nil => intro fs; rfl
  | cons e rest ih =>
    intro fs
    obtain ⟨p, d⟩ := e
    by_cases ho : openOk p = true
    · cases d with
      | garbage => simp [cleanLoop, ho, ih]
      | record r =>
        by_cases hc : check_temporary_directory r now = true
        · simp [cleanLoop, ho, hc, ih, delete_files]
        · simp [cleanLoop, ho, hc, ih]
    · simp [cleanLoop, ho, ih]

theorem cleanLoop_queued_spec (now : Int) (openOk : String → Bool) :
    ∀ (entries : List (String × FileData)) (fs : Fs) (p : String),
    p ∈ (cleanLoop now openOk entries fs).queued →
    ∃ r, (p, FileData.record r) ∈ entries ∧ openOk p = true := by
  intro entries
  induction entries with
  | nil => intro fs p h; cases h
  | cons e rest ih =>
    intro fs p h
    obtain ⟨q, d⟩ := e
    by_cases ho : openOk q = true
    · cases d with
      | garbage =>
        simp only [cleanLoop, ho, if_true] at h
        obtain ⟨r, hr, hop⟩ := ih fs p h
        exact ⟨r, List.mem_cons_of_mem _ hr, hop⟩
      | record r =>
        by_cases hc : check_temporary_directory r now = true
        · simp only [cleanLoop, ho, hc, if_true] at h
          rcases List.mem_cons.mp h with h1 | h1
          · subst h1
            exact ⟨r, List.mem_cons_self _ _, ho⟩
          · obtain ⟨r0, hr0, hop⟩ := ih (r.delete fs) p h1
            exact ⟨r0, List.mem_cons_of_mem _ hr0, hop⟩
        · simp only [cleanLoop, ho, hc, if_true, if_false, Bool.false_eq_true] at h
          rcases List.mem_cons.mp h with h1 | h1
          · subst h1
            exact ⟨r, List.mem_cons_self _ _, ho⟩
          · obtain ⟨r0, hr0, hop⟩ := ih fs p h1
            exact ⟨r0, List.mem_cons_of_mem _ hr0, hop⟩
    · simp only [cleanLoop, ho, if_false, Bool.false_eq_true] at h
      obtain ⟨r, hr, hop⟩ := ih fs p h
      exact ⟨r, List.mem_cons_of_mem _ hr, hop⟩

theorem cleanLoop_queued_mem (now : Int) (openOk : String → Bool) :
    ∀ (entries : List (String × FileData)) (fs : Fs) (p : String) (r : TemporaryDirectory),
    (p, FileData.record r) ∈ entries → openOk p = true →
    p ∈ (cleanLoop now openOk entries fs).queued := by
  intro entries
  induction entries with
  | nil => intro fs p r h; cases h
  | cons e rest ih =>
    intro fs p r h hop
    obtain ⟨q, d⟩ := e
    rcases List.mem_cons.mp h with h1 | h1
    · cases h1
      simp [cleanLoop, hop]
      by_cases hc : check_temporary_directory r now = true <;> simp [hc]
    · by_cases ho : openOk q = true
      · cases d with
        | garbage =>
          simp only [cleanLoop, ho, if_true]
          exact ih fs p r h1 hop
        | record r0 =>
          by_cases hc : check_temporary_directory r0 now = true
          · simp only [cleanLoop, ho, hc, if_true]
            exact List.mem_cons_of_mem _ (ih (r0.delete fs) p r h1 hop)
          · simp only [cleanLoop, ho, hc, if_true, if_false, Bool.false_eq_true]
            exact List.mem_cons_of_mem _ (ih fs p r h1 hop)
      · simp only [cleanLoop, ho, if_false, Bool.false_eq_true]
        exact ih fs p r h1 hop

theorem cleanLoop_deleteCalls_spec (now : Int) (openOk : String → Bool) :
    ∀ (entries : List (String × FileData)) (fs : Fs) (r : TemporaryDirectory),
    r ∈ (cleanLoop now openOk entries fs).deleteCalls →
    check_temporary_directory r now = true ∧
    ∃ p, (p, FileData.record r) ∈ entries ∧ openOk p = true := by
  intro entries
  induction entries with
  | nil => intro fs r h; cases h
  | cons e rest ih =>
    intro fs r h
    obtain ⟨q, d⟩ := e
    by_cases ho : openOk q = true
    · cases d with
      | garbage =>
        simp only [cleanLoop, ho, if_true] at h
        obtain ⟨hc, p, hp, hop⟩ := ih fs r h
        exact ⟨hc, p, List.mem_cons_of_mem _ hp, hop⟩
      | record r0 =>
        by_cases hc : check_temporary_directory r0 now = true
        · simp only [cleanLoop, ho, hc, if_true] at h
          rcases List.mem_cons.mp h with h1 | h1
          · subst h1
            exact ⟨hc, q, List.mem_cons_self _ _, ho⟩
          · obtain ⟨hc0, p, hp, hop⟩ := ih (r0.delete fs) r h1
            exact ⟨hc0, p, List.mem_cons_of_mem _ hp, hop⟩
        · simp only [cleanLoop, ho, hc, if_true, if_false, Bool.false_eq_true] at h
          obtain ⟨hc0, p, hp, hop⟩ := ih fs r h
          exact ⟨hc0, p, List.mem_cons_of_mem _ hp, hop⟩
    · simp only [cleanLoop, ho, if_false, Bool.false_eq_true] at h
      obtain ⟨hc, p, hp, hop⟩ := ih fs r h
      exact ⟨hc, p, List.mem_cons_of_mem _ hp, hop⟩

theorem cleanLoop_deleteCalls_mem (now : Int) (openOk : String → Bool) :
    ∀ (entries : List (String × FileData)) (fs : Fs) (p : String) (r : TemporaryDirectory),
    (p, FileData.record r) ∈ entries → openOk p = true →
    check_temporary_directory r now = true →
    r ∈ (cleanLoop now openOk entries fs).deleteCalls := by
  intro entries
  induction entries with
  | nil => intro fs p r h; cases h
  | cons e rest ih =>
    intro fs p r h hop hc
    obtain ⟨q, d⟩ := e
    rcases List.mem_cons.mp h with h1 | h1
    · cases h1
      simp [cleanLoop, hop, hc]
    · by_cases ho : openOk q = true
      · cases d with
        | garbage =>
          simp only [cleanLoop, ho, if_true]
          exact ih fs p r h1 hop hc
        | record r0 =>
          by_cases hc0 : check_temporary_directory r0 now = true
          · simp only [cleanLoop, ho, hc0, if_true]
            exact List.mem_cons_of_mem _ (ih (r0.delete fs) p r h1 hop hc)
          · simp only [cleanLoop, ho, hc0, if_true, if_false, Bool.false_eq_true]
            exact ih fs p r h1 hop hc
      · simp only [cleanLoop, ho, if_false, Bool.false_eq_true]
        exact ih fs p r h1 hop hc

theorem cleanLoop_dirs_removed (now : Int) (openOk : String → Bool) :
    ∀ (entries : List (String × FileData)) (fs : Fs) (d : String),
    d ∈ fs.dirs → ¬ d ∈ (cleanLoop now openOk entries fs).fs.dirs →
    ∃ p r, (p, FileData.record r) ∈ entries ∧ openOk p = true ∧
      check_temporary_directory r now = true ∧ r.path = some d := by
  intro entries
  induction entries with
  | nil => intro fs d hd hn; exact absurd hd hn
  | cons e rest ih =>
    intro fs d hd hn
    obtain ⟨q, d0⟩ := e
    by_cases ho : openOk q = true
    · cases d0 with
      | garbage =>
        simp only [cleanLoop, ho, if_true] at hn
        obtain ⟨p, r, hp, hop, hc, hpath⟩ := ih fs d hd hn
        exact ⟨p, r, List.mem_cons_of_mem _ hp, hop, hc, hpath⟩
      | record r0 =>
        by_cases hc : check_temporary_directory r0 now = true
        · simp only [cleanLoop, ho, hc, if_true] at hn
          by_cases hd1 : d ∈ (r0.delete fs).dirs
          · obtain ⟨p, r, hp, hop, hc0, hpath⟩ := ih (r0.delete fs) d hd1 hn
            exact ⟨p, r, List.mem_cons_of_mem _ hp, hop, hc0, hpath⟩
          · exact ⟨q, r0, List.mem_cons_self _ _, ho, hc,
              delete_removed_dir r0 fs d hd hd1⟩
        · simp only [cleanLoop, ho, hc, if_true, if_false, Bool.false_eq_true] at hn
          obtain ⟨p, r, hp, hop, hc0, hpath⟩ := ih fs d hd hn
          exact ⟨p, r, List.mem_cons_of_mem _ hp, hop, hc0, hpath⟩
    · simp only [cleanLoop, ho, if_false, Bool.false_eq_true] at hn
      obtain ⟨p, r, hp, hop, hc, hpath⟩ := ih fs d hd hn
      exact ⟨p, r, List.mem_cons_of_mem _ hp, hop, hc, hpath⟩

theorem cleanLoop_keeps_store (now : Int) (openOk : String → Bool) (store : String) :
    ∀ (entries : List (String × FileData)) (fs : Fs),
    (∀ pd ∈ entries, pd ∈ fs.files ∧ isInside store pd.1 = true) →
    store ∈ fs.dirs →
    store ∈ (cleanLoop now openOk entries fs).fs.dirs := by
  intro entries
  induction entries with
  | nil => intro fs _ h; exact h
  | cons e rest ih =>
    intro fs hinv hst
    obtain ⟨q, d0⟩ := e
    have hinvrest : ∀ pd ∈ rest, pd ∈ fs.files ∧ isInside store pd.1 = true :=
      fun pd hpd => hinv pd (List.mem_cons_of_mem _ hpd)
    by_cases ho : openOk q = true
    · cases d0 with
      | garbage =>
        simp only [cleanLoop, ho, if_true]
        exact ih fs hinvrest hst
      | record r0 =>
        by_cases hc : check_temporary_directory r0 now = true
        · simp only [cleanLoop, ho, hc, if_true]
          have hhead := hinv (q, FileData.record r0) (List.mem_cons_self _ _)
          have hst1 : store ∈ (r0.delete fs).dirs :=
            delete_keeps_nonempty_dir r0 fs store hst q (FileData.record r0) hhead.1 hhead.2
          have hinv1 : ∀ pd ∈ rest, pd ∈ (r0.delete fs).files ∧ isInside store pd.1 = true := by
            intro pd hpd
            rw [delete_files]
            exact hinvrest pd hpd
          exact ih (r0.delete fs) hinv1 hst1
        · simp only [cleanLoop, ho, hc, if_true, if_false, Bool.false_eq_true]
          exact ih fs hinvrest hst
    · simp only [cleanLoop, ho, if_false, Bool.false_eq_true]
      exact ih fs hinvrest hst

theorem dirExists_iff (fs : Fs) (d : String) : dirExists fs d = true ↔ d ∈ fs.dirs := by
  simp [dirExists, List.contains_iff_exists_mem_beq]

theorem clean_directories_eq (store : String) (now : Int) (openOk : String → Bool)
    (fs : Fs) (hstore : dirExists fs store = true) :
    clean_directories (some store) now openOk fs =
      removeQueued (cleanLoop now openOk (sweepEntries store fs) fs).queued
        (cleanLoop now openOk (sweepEntries store fs) fs).fs := by
  simp [clean_directories, hstore]

theorem sweepEntries_inv (store : String) (fs : Fs) :
    ∀ pd ∈ sweepEntries store fs, pd ∈ fs.files ∧ isInside store pd.1 = true := by
  intro pd hpd
  have h := List.mem_filter.mp hpd
  refine ⟨h.1, ?_⟩
  have h2 := h.2
  unfold directlyInside at h2
  simp only [Bool.and_eq_true] at h2
  exact h2.1

/-! ## Claim theorems: the sweep -/

/-- Claim C1: after one sweep pass, the metadata file of every successfully
opened and parsed record is gone regardless of expiry, while `delete` is
invoked exactly on the records whose expiry check returns true. -/
theorem sweep_metadata_and_delete (store : String) (now : Int) (openOk : String → Bool)
    (fs : Fs) (hstore : dirExists fs store = true) :
    (∀ p r, (p, FileData.record r) ∈ sweepEntries store fs → openOk p = true →
      fileExists (clean_directories (some store) now openOk fs) p = false) ∧
    (∀ r, r ∈ (cleanLoop now openOk (sweepEntries store fs) fs).deleteCalls →
      check_temporary_directory r now = true ∧
      ∃ p, (p, FileData.record r) ∈ sweepEntries store fs ∧ openOk p = true) ∧
    (∀ p r, (p, FileData.record r) ∈ sweepEntries store fs → openOk p = true →
      check_temporary_directory r now = true →
      r ∈ (cleanLoop now openOk (sweepEntries store fs) fs).deleteCalls) := by
  refine ⟨?_, ?_, ?_⟩
  · intro p r hmem hop
    rw [clean_directories_eq store now openOk fs hstore]
    exact removeQueued_of_mem _ _ _
      (cleanLoop_queued_mem now openOk (sweepEntries store fs) fs p r hmem hop)
  · intro r hr
    exact cleanLoop_deleteCalls_spec now openOk (sweepEntries store fs) fs r hr
  · intro p r hmem hop hc
    exact cleanLoop_deleteCalls_mem now openOk (sweepEntries store fs) fs p r hmem hop hc

/-- Claim C1, witness: in a store holding an expired record, a live record
and a garbage file, the live record's metadata file is gone after the
sweep even though it was not expired. -/
theorem sweep_metadata_and_delete_witness :
    fileExists
      (clean_directories (some "/s") 10 (fun _ => true)
        ⟨["/s", "/d1"],
         [("/s/a.json", FileData.record ⟨"a", "1s", 0, 5, some "/d1"⟩),
          ("/s/b.json", FileData.record ⟨"b", "1s", 0, 100, none⟩),
          ("/s/junk", FileData.garbage)]⟩)
      "/s/b.json" = false :=
  (sweep_metadata_and_delete "/s" 10 (fun _ => true)
      ⟨["/s", "/d1"],
       [("/s/a.json", FileData.record ⟨"a", "1s", 0, 5, some "/d1"⟩),
        ("/s/b.json", FileData.record ⟨"b", "1s", 0, 100, none⟩),
        ("/s/junk", FileData.garbage)]⟩
      (by decide)).1
    "/s/b.json" ⟨"b", "1s", 0, 100, none⟩ (by decide) rfl

/-- Claim C8: an entry that fails to open or fails to deserialize is merely
skipped: the whole per-entry loop behaves exactly as if the bad entry were
absent, so every other entry is processed identically. -/
theorem sweep_skips_bad_entries (now : Int) (openOk : String → Bool)
    (xs ys : List (String × FileData)) (p : String) (d : FileData) (fs : Fs)
    (hbad : openOk p = false ∨ d = FileData.garbage) :
    cleanLoop now openOk (xs ++ (p, d) :: ys) fs = cleanLoop now openOk (xs ++ ys) fs := by
  induction xs generalizing fs with
  | nil =>
    rcases hbad with hb | hb
    · simp [cleanLoop, hb]
    · subst hb
      by_cases ho : openOk p = true <;> simp [cleanLoop, ho]
  | cons e xs ih =>
    obtain ⟨q, d0⟩ := e
    simp only [List.cons_append]
    by_cases ho : openOk q = true
    · cases d0 with
      | garbage => simp only [cleanLoop, ho, if_true]; exact ih fs
      | record r =>
        by_cases hc : check_temporary_directory r now = true
        · simp only [cleanLoop, ho, hc, if_true]
          rw [ih (r.delete fs)]
        · simp only [cleanLoop, ho, hc, if_true, if_false, Bool.false_eq_true]
          rw [ih fs]
    · simp only [cleanLoop, ho, if_false, Bool.false_eq_true]
      exact ih fs

/-- Claim C8, witness: dropping a garbage entry from the middle of a store
listing leaves the loop's outcome unchanged. -/
theorem sweep_skips_bad_entries_witness :
    cleanLoop 10 (fun _ => true)
      [("/s/a.json", FileData.record ⟨"a", "1s", 0, 5, some "/d1"⟩),
       ("/s/junk", FileData.garbage),
       ("/s/b.json", FileData.record ⟨"b", "1s", 0, 100, none⟩)]
      ⟨["/s", "/d1"], []⟩ =
    cleanLoop 10 (fun _ => true)
      [("/s/a.json", FileData.record ⟨"a", "1s", 0, 5, some "/d1"⟩),
       ("/s/b.json", FileData.record ⟨"b", "1s", 0, 100, none⟩)]
      ⟨["/s", "/d1"], []⟩ :=
  sweep_skips_bad_entries 10 (fun _ => true)
    [("/s/a.json", FileData.record ⟨"a", "1s", 0, 5, some "/d1"⟩)]
    [("/s/b.json", FileData.record ⟨"b", "1s", 0, 100, none⟩)]
    "/s/junk" FileData.garbage ⟨["/s", "/d1"], []⟩ (Or.inr rfl)

/-- Claim C9: a sweep never removes the store directory itself; the only
directories it removes are recorded paths of expired, successfully read
records, and the only files it removes lie directly inside the store path. -/
theorem sweep_frame (store : String) (now : Int) (openOk : String → Bool)
    (fs : Fs) (hstore : dirExists fs store = true) :
    dirExists (clean_directories (some store) now openOk fs) store = true ∧
    (∀ d, d ∈ fs.dirs → ¬ d ∈ (clean_directories (some store) now openOk fs).dirs →
      ∃ p r, (p, FileData.record r) ∈ sweepEntries store fs ∧ openOk p = true ∧
        check_temporary_directory r now = true ∧ r.path = some d) ∧
    (∀ pd, pd ∈ fs.files → ¬ pd ∈ (clean_directories (some store) now openOk fs).files →
      directlyInside store pd.1 = true) := by
  rw [clean_directories_eq store now openOk fs hstore]
  refine ⟨?_, ?_, ?_⟩
  · rw [dirExists_iff, removeQueued_dirs]
    exact cleanLoop_keeps_store now openOk store (sweepEntries store fs) fs
      (sweepEntries_inv store fs) ((dirExists_iff fs store).mp hstore)
  · intro d hd hn
    rw [removeQueued_dirs] at hn
    exact cleanLoop_dirs_removed now openOk (sweepEntries store fs) fs d hd hn
  · intro pd hpd hn
    have hpd1 : pd ∈ (cleanLoop now openOk (sweepEntries store fs) fs).fs.files := by
      rw [cleanLoop_files]
      exact hpd
    have hq := removeQueued_removed_mem _ _ pd hpd1 hn
    obtain ⟨r, hmem, _⟩ := cleanLoop_queued_spec now openOk (sweepEntries store fs) fs pd.1 hq
    exact (List.mem_filter.mp hmem).2

/-- Claim C9, witness: the store directory survives a sweep that removes an
expired record's directory and both metadata files. -/
theorem sweep_frame_witness :
    dirExists
      (clean_directories (some "/s") 10 (fun _ => true)
        ⟨["/s", "/d1"],
         [("/s/a.json", FileData.record ⟨"a", "1s", 0, 5, some "/d1"⟩),
          ("/s/b.json", FileData.record ⟨"b", "1s", 0, 100, none⟩)]⟩)
      "/s" = true :=
  (sweep_frame "/s" 10 (fun _ => true)
      ⟨["/s", "/d1"],
       [("/s/a.json", FileData.record ⟨"a", "1s", 0, 5, some "/d1"⟩),
        ("/s/b.json", FileData.record ⟨"b", "1s", 0, 100, none⟩)]⟩
      (by decide)).1

/-! ## Lemmas: save and create -/

theorem dirEmpty_iff (fs : Fs) (p : String) :
    dirEmpty fs p = true ↔
      (∀ pd ∈ fs.files, ¬ isInside p pd.1 = true) ∧
      (∀ e ∈ fs.dirs, ¬ e = p → ¬ isInside p e = true) := by
  unfold dirEmpty
  simp [List.any_eq_true, not_or, Bool.and_eq_true]

theorem removeDirFs_succeeds (fs : Fs) (p : String) (hd : p ∈ fs.dirs)
    (he : dirEmpty fs p = true) :
    removeDirFs fs p = some ⟨fs.dirs.erase p, fs.files⟩ := by
  unfold removeDirFs
  rw [if_pos]
  rw [Bool.and_eq_true]
  exact ⟨(dirExists_iff fs p).mpr hd, he⟩

theorem delete_removes (r : TemporaryDirectory) (fs : Fs) (p : String)
    (hpath : r.path = some p) (hd : p ∈ fs.dirs) (he : dirEmpty fs p = true)
    (hnodup : fs.dirs.Nodup) : ¬ p ∈ (r.delete fs).dirs := by
  have hrm := removeDirFs_succeeds fs p hd he
  simp only [TemporaryDirectory.delete, hpath, hrm]
  exact hnodup.not_mem_erase

theorem ensureStoreDir_spec (fs fs1 : Fs) (store : String)
    (h : ensureStoreDir fs store = some fs1) :
    fs1.files = fs.files ∧
    (fs1.dirs = fs.dirs ∨ (fs1.dirs = store :: fs.dirs ∧ ¬ store ∈ fs.dirs)) := by
  unfold ensureStoreDir at h
  split at h
  · cases h
    exact ⟨rfl, Or.inl rfl⟩
  · rename_i hne
    unfold createDirFs at h
    split at h
    · cases h
    · cases h
      refine ⟨rfl, Or.inr ⟨rfl, ?_⟩⟩
      intro hmem
      exact hne ((dirExists_iff fs store).mpr hmem)

theorem createFileFs_spec (fs fs1 : Fs) (p : String) (h : createFileFs fs p = some fs1) :
    fs1.dirs = fs.dirs ∧
    fs1.files = (p, FileData.garbage) :: fs.files.filter (fun f => ¬ f.1 = p) := by
  unfold createFileFs at h
  split at h
  · cases h
  · cases h
    exact ⟨rfl, rfl⟩

theorem createDirFs_spec (fs fs1 : Fs) (d : String) (h : createDirFs fs d = some fs1) :
    fs1.dirs = d :: fs.dirs ∧ fs1.files = fs.files := by
  unfold createDirFs at h
  split at h
  · cases h
  · cases h
    exact ⟨rfl, rfl⟩

theorem save_files_sub (self : TemporaryDirectory) (sp : Option String) (serOk : Bool)
    (fs : Fs) (pd : String × FileData)
    (h : pd ∈ (self.save sp serOk fs).1.files) :
    pd ∈ fs.files ∨ pd.2 = FileData.garbage ∨ pd.2 = FileData.record self := by
  cases sp with
  | none =>
    simp only [TemporaryDirectory.save] at h
    rw [delete_files] at h
    exact Or.inl h
  | some store =>
    cases hE : ensureStoreDir fs store with
    | none =>
      simp only [TemporaryDirectory.save, hE] at h
      rw [delete_files] at h
      exact Or.inl h
    | some fs1 =>
      obtain ⟨hf1, _⟩ := ensureStoreDir_spec fs fs1 store hE
      cases hC : createFileFs fs1 (store ++ "/" ++ self.name ++ ".json") with
      | none =>
        simp only [TemporaryDirectory.save, hE, hC] at h
        rw [delete_files, hf1] at h
        exact Or.inl h
      | some fs2 =>
        obtain ⟨_, hf2⟩ := createFileFs_spec fs1 fs2 _ hC
        cases serOk with
        | true =>
          simp only [TemporaryDirectory.save, hE, hC, if_true] at h
          unfold writeFileData at h
          rcases List.mem_cons.mp h with h1 | h1
          · right; right; rw [h1]
          · have h2 := (List.mem_filter.mp h1).1
            rw [hf2] at h2
            rcases List.mem_cons.mp h2 with h3 | h3
            · right; left; rw [h3]
            · exact Or.inl (hf1 ▸ (List.mem_filter.mp h3).1)
        | false =>
          simp only [TemporaryDirectory.save, hE, hC, Bool.false_eq_true, if_false] at h
          rw [delete_files, hf2] at h
          rcases List.mem_cons.mp h with h1 | h1
          · right; left; rw [h1]
          · exact Or.inl (hf1 ▸ (List.mem_filter.mp h1).1)

theorem fileExists_congr (fs1 fs : Fs) (q : String) (h : fs1.files = fs.files) :
    fileExists fs1 q = fileExists fs q := by
  unfold fileExists
  rw [h]

/-! ## Claim theorems: save rollback and materialize -/

/-- Claim C2, counterexample: when `save` fails at the serialization step
(the `serde_json::to_writer` write), the physical directory is rolled back
but the metadata file created by `File::create` is left behind. -/
theorem save_rollback_cex :
    (TemporaryDirectory.save ⟨"n", "1s", 0, 1, some "/w/n"⟩ (some "/e/td") false
      ⟨["/w", "/w/n", "/e"], []⟩).2 = false ∧
    fileExists (TemporaryDirectory.save ⟨"n", "1s", 0, 1, some "/w/n"⟩ (some "/e/td") false
      ⟨["/w", "/w/n", "/e"], []⟩).1 "/e/td/n.json" = true ∧
    dirExists (TemporaryDirectory.save ⟨"n", "1s", 0, 1, some "/w/n"⟩ (some "/e/td") false
      ⟨["/w", "/w/n", "/e"], []⟩).1 "/w/n" = false := by
  decide

/-- Claim C2 (amended): on any failing step of `save`, the physical
directory is removed; when the failure happens before the metadata file is
created (store path unresolvable, store directory uncreatable, metadata
file uncreatable), no metadata file for the name is added, but when the
failure is at the serialization step the just-created metadata file
remains. -/
theorem save_rollback (self : TemporaryDirectory) (store : String) (serOk : Bool)
    (fs : Fs) (p : String)
    (hpath : self.path = some p)
    (hnodup : fs.dirs.Nodup)
    (hdir : p ∈ fs.dirs)
    (hempty : dirEmpty fs p = true)
    (hsp : isInside p store = false)
    (hspne : ¬ store = p)
    (hfp : isInside p (store ++ "/" ++ self.name ++ ".json") = false) :
    ((self.save none serOk fs).2 = false ∧ ¬ p ∈ (self.save none serOk fs).1.dirs) ∧
    ((self.save (some store) serOk fs).2 = false →
      ¬ p ∈ (self.save (some store) serOk fs).1.dirs) ∧
    (serOk = true → (self.save (some store) serOk fs).2 = false →
      fileExists (self.save (some store) serOk fs).1 (store ++ "/" ++ self.name ++ ".json") =
      fileExists fs (store ++ "/" ++ self.name ++ ".json")) ∧
    (serOk = false → ∀ fs1 fs2, ensureStoreDir fs store = some fs1 →
      createFileFs fs1 (store ++ "/" ++ self.name ++ ".json") = some fs2 →
      (self.save (some store) serOk fs).2 = false ∧
      fileExists (self.save (some store) serOk fs).1
        (store ++ "/" ++ self.name ++ ".json") = true) := by
  have hallfs1 : ∀ fs1, ensureStoreDir fs store = some fs1 →
      p ∈ fs1.dirs ∧ dirEmpty fs1 p = true ∧ fs1.dirs.Nodup := by
    intro fs1 hE
    obtain ⟨hf1, hd1⟩ := ensureStoreDir_spec fs fs1 store hE
    rcases hd1 with hd1 | ⟨hd1, hst⟩
    · exact ⟨hd1 ▸ hdir, by
        rw [dirEmpty_iff]
        rw [hf1, hd1]
        exact dirEmpty_iff fs p |>.mp hempty, hd1 ▸ hnodup⟩
    · refine ⟨hd1 ▸ List.mem_cons_of_mem _ hdir, ?_, hd1 ▸ List.nodup_cons.mpr ⟨hst, hnodup⟩⟩
      rw [dirEmpty_iff, hf1, hd1]
      obtain ⟨hA, hB⟩ := (dirEmpty_iff fs p).mp hempty
      refine ⟨hA, ?_⟩
      intro e he hne
      rcases List.mem_cons.mp he with he1 | he1
      · subst he1
        simp [hsp]
      · exact hB e he1 hne
  have hallfs2 : ∀ fs1 fs2, ensureStoreDir fs store = some fs1 →
      createFileFs fs1 (store ++ "/" ++ self.name ++ ".json") = some fs2 →
      p ∈ fs2.dirs ∧ dirEmpty fs2 p = true ∧ fs2.dirs.Nodup := by
    intro fs1 fs2 hE hC
    obtain ⟨hp1, he1, hn1⟩ := hallfs1 fs1 hE
    obtain ⟨hd2, hf2⟩ := createFileFs_spec fs1 fs2 _ hC
    refine ⟨hd2 ▸ hp1, ?_, hd2 ▸ hn1⟩
    rw [dirEmpty_iff, hd2, hf2]
    obtain ⟨hA, hB⟩ := (dirEmpty_iff fs1 p).mp he1
    refine ⟨?_, hB⟩
    intro pd hpd
    rcases List.mem_cons.mp hpd with h1 | h1
    · subst h1
      simp [hfp]
    · exact hA pd (List.mem_filter.mp h1).1
  refine ⟨⟨rfl, delete_removes self fs p hpath hdir hempty hnodup⟩, ?_, ?_, ?_⟩
  · intro hfail
    cases hE : ensureStoreDir fs store with
    | none =>
      simp only [TemporaryDirectory.save, hE]
      exact delete_removes self fs p hpath hdir hempty hnodup
    | some fs1 =>
      obtain ⟨hp1, he1, hn1⟩ := hallfs1 fs1 hE
      cases hC : createFileFs fs1 (store ++ "/" ++ self.name ++ ".json") with
      | none =>
        simp only [TemporaryDirectory.save, hE, hC]
        exact delete_removes self fs1 p hpath hp1 he1 hn1
      | some fs2 =>
        obtain ⟨hp2, he2, hn2⟩ := hallfs2 fs1 fs2 hE hC
        cases serOk with
        | true =>
          simp only [TemporaryDirectory.save, hE, hC, if_true] at hfail
          exact Bool.noConfusion hfail
        | false =>
          simp only [TemporaryDirectory.save, hE, hC, Bool.false_eq_true, if_false]
          exact delete_removes self fs2 p hpath hp2 he2 hn2
  · intro hser hfail
    cases hE : ensureStoreDir fs store with
    | none =>
      simp only [TemporaryDirectory.save, hE]
      exact fileExists_congr _ _ _ (delete_files self fs)
    | some fs1 =>
      obtain ⟨hf1, _⟩ := ensureStoreDir_spec fs fs1 store hE
      cases hC : createFileFs fs1 (store ++ "/" ++ self.name ++ ".json") with
      | none =>
        simp only [TemporaryDirectory.save, hE, hC]
        rw [fileExists_congr _ fs1 _ (delete_files self fs1)]
        exact fileExists_congr fs1 fs _ hf1
      | some fs2 =>
        subst hser
        simp only [TemporaryDirectory.save, hE, hC, if_true] at hfail
        exact Bool.noConfusion hfail
  · intro hser fs1 fs2 hE hC
    subst hser
    obtain ⟨_, hf2⟩ := createFileFs_spec fs1 fs2 _ hC
    simp only [TemporaryDirectory.save, hE, hC, Bool.false_eq_true, if_false]
    refine ⟨trivial, ?_⟩
    rw [fileExists_congr _ fs2 _ (delete_files self fs2)]
    unfold fileExists
    rw [hf2]
    simp

/-- Claim C2, witness: the amended statement applied to a concrete
serialization failure: the save reports failure and the truncated metadata
file is left on disk. -/
theorem save_rollback_witness :
    (TemporaryDirectory.save ⟨"n", "1s", 0, 1, some "/w/n"⟩ (some "/e/td") false
      ⟨["/w", "/w/n", "/e"], []⟩).2 = false ∧
    fileExists (TemporaryDirectory.save ⟨"n", "1s", 0, 1, some "/w/n"⟩ (some "/e/td") false
      ⟨["/w", "/w/n", "/e"], []⟩).1 ("/e/td" ++ "/" ++ "n" ++ ".json") = true :=
  (save_rollback ⟨"n", "1s", 0, 1, some "/w/n"⟩ "/e/td" false
      ⟨["/w", "/w/n", "/e"], []⟩ "/w/n" rfl (by decide) (by decide) (by decide)
      (by decide) (by decide) (by decide)).2.2.2 rfl
    ⟨["/e/td", "/w", "/w/n", "/e"], []⟩
    ⟨["/e/td", "/w", "/w/n", "/e"], [("/e/td/n.json", FileData.garbage)]⟩
    (by decide) (by decide)

/-- Claim C7, counterexample: when `create` succeeds in making the directory
but `canonicalize` fails, the error is only logged and the record is
persisted with `path` unset, contradicting "every record persisted by
Materialize has its path field set". -/
theorem materialize_path_cex :
    dirExists (TemporaryDirectory.create ⟨"n", "1s", 0, 1, none⟩ "/w" false
      (some "/e/td") true ⟨["/w", "/e"], []⟩) "/w/n" = true ∧
    ("/e/td/n.json", FileData.record ⟨"n", "1s", 0, 1, none⟩) ∈
      (TemporaryDirectory.create ⟨"n", "1s", 0, 1, none⟩ "/w" false
        (some "/e/td") true ⟨["/w", "/e"], []⟩).files ∧
    (⟨"n", "1s", 0, 1, none⟩ : TemporaryDirectory).path = none := by
  decide

/-- Claim C7 (amended): whenever `create` makes the directory and the path
resolution succeeds, every record it newly persists carries
`path = some (absolute path of the created directory)`; when the
resolution fails the record is still persisted, with `path` unset. -/
theorem materialize_path (self : TemporaryDirectory) (cwd : String) (canonOk : Bool)
    (storePath : Option String) (serOk : Bool) (fs : Fs)
    (hself : self.path = none) :
    ∀ p r, (p, FileData.record r) ∈ (self.create cwd canonOk storePath serOk fs).files →
      ¬ (p, FileData.record r) ∈ fs.files →
      r.path = (if canonOk then some (cwd ++ "/" ++ self.name) else none) := by
  intro p r hmem hnot
  cases hD : createDirFs fs (cwd ++ "/" ++ self.name) with
  | none =>
    simp only [TemporaryDirectory.create, hD] at hmem
    exact absurd hmem hnot
  | some fs1 =>
    obtain ⟨_, hf1⟩ := createDirFs_spec fs fs1 _ hD
    cases canonOk with
    | true =>
      simp only [TemporaryDirectory.create, hD, if_true] at hmem
      rcases save_files_sub { self with path := some (cwd ++ "/" ++ self.name) }
          storePath serOk fs1 (p, FileData.record r) hmem with h1 | h1 | h1
      · rw [hf1] at h1
        exact absurd h1 hnot
      · exact absurd h1 (by simp)
      · simp only [FileData.record.injEq] at h1
        rw [h1]
        simp
    | false =>
      simp only [TemporaryDirectory.create, hD, Bool.false_eq_true, if_false] at hmem
      rcases save_files_sub self storePath serOk fs1 (p, FileData.record r) hmem
          with h1 | h1 | h1
      · rw [hf1] at h1
        exact absurd h1 hnot
      · exact absurd h1 (by simp)
      · simp only [FileData.record.injEq] at h1
        rw [h1, hself]
        simp

/-- Claim C7, witness: the amended statement applied to a successful
create-and-resolve run: the persisted record's path is the created
directory's absolute path. -/
theorem materialize_path_witness :
    (⟨"n", "1s", 0, 1, some "/w/n"⟩ : TemporaryDirectory).path =
      (if true then some ("/w" ++ "/" ++ "n") else none) :=
  materialize_path ⟨"n", "1s", 0, 1, none⟩ "/w" true (some "/e/td") true
    ⟨["/w", "/e"], []⟩ rfl "/e/td/n.json" ⟨"n", "1s", 0, 1, some "/w/n"⟩
    (by decide) (by decide)

end Tempdir
